import Mathlib

/-!
Verification of the Flask-blog content core against its specification.

The definitions below are a shallow embedding of the repository's Python
source:

* `src/blog_app/utils/slug.py` — `slugify` and `ensure_unique_slug`;
* `src/models.py` — the unified `Post` model (`published` property,
  `set_meta`, `to_dict`), `PostMeta`, `Category`, `Tag`;
* `src/blog_app/blueprints/admin/routes.py` — publish/edit mutations and
  the category/tag delete guards;
* `src/blog_app/cli.py` — the `publish-scheduled` sweep.

The relational store is modelled as explicit Lean lists of rows; machine
behaviour that the code delegates to the Python standard library (decimal
formatting of the slug counter, `datetime.isoformat`) is modelled by
explicit executable functions.
-/

/-! ### Decimal rendering

Python renders the slug counter with an f-string, `f"{base_slug}-{i}"`,
which prints `i` in decimal.  We embed decimal printing as an executable
fuelled recursion (fuel `n + 1` always suffices since `n / 10 < n` for
`n ≥ 10`) together with a verified parser used to prove injectivity. -/

def decDigit : Nat → Char
  | 0 => '0'
  | 1 => '1'
  | 2 => '2'
  | 3 => '3'
  | 4 => '4'
  | 5 => '5'
  | 6 => '6'
  | 7 => '7'
  | 8 => '8'
  | _ => '9'

def decDigitsAux : Nat → Nat → List Char
  | 0, _ => []
  | fuel + 1, n =>
    if n < 10 then [decDigit n]
    else decDigitsAux fuel (n / 10) ++ [decDigit (n % 10)]

def decDigits (n : Nat) : List Char :=
  decDigitsAux (n + 1) n

def natToDec (n : Nat) : String :=
  ⟨decDigits n⟩

def decVal : Char → Nat
  | '0' => 0
  | '1' => 1
  | '2' => 2
  | '3' => 3
  | '4' => 4
  | '5' => 5
  | '6' => 6
  | '7' => 7
  | '8' => 8
  | _ => 9

def decParse (l : List Char) : Nat :=
  l.foldl (fun a c => 10 * a + decVal c) 0

/-! ### Slug normalisation (`slugify`, slug.py lines 10-14)

```python
def slugify(text: str) -> str:
    s = text.strip().lower()
    s = _slug_re.sub("-", s)      # _slug_re = re.compile(r"[^a-z0-9]+")
    s = s.strip("-")
    return s or "item"
```

`collapseAux` replaces each maximal run of characters outside `[a-z0-9]`
by a single hyphen, exactly as the regex substitution does; it is fuelled
(structurally recursive) and fuel `length + 1` always suffices because
each step consumes at least one character. -/

def isSlugChar (c : Char) : Bool :=
  ('a' ≤ c && c ≤ 'z') || ('0' ≤ c && c ≤ '9')

def collapseAux : Nat → List Char → List Char
  | 0, _ => []
  | _ + 1, [] => []
  | fuel + 1, c :: rest =>
    if isSlugChar c then c :: collapseAux fuel rest
    else '-' :: collapseAux fuel (rest.dropWhile fun d => !isSlugChar d)

def collapseNonSlug (l : List Char) : List Char :=
  collapseAux (l.length + 1) l

def isDash (c : Char) : Bool :=
  c == '-'

def stripDashes (l : List Char) : List Char :=
  ((l.dropWhile isDash).reverse.dropWhile isDash).reverse

/-- Python `str.strip()` with no argument: remove leading and trailing
whitespace. -/
def pyStrip (l : List Char) : List Char :=
  ((l.dropWhile Char.isWhitespace).reverse.dropWhile Char.isWhitespace).reverse

def slugify (text : String) : String :=
  let s := (pyStrip text.data).map Char.toLower
  let s := collapseNonSlug s
  let s := stripDashes s
  if s.isEmpty then "item" else ⟨s⟩

/-! ### Slug disambiguation (`ensure_unique_slug`, slug.py lines 17-36)

```python
def ensure_unique_slug(model, base_slug, exclude_id=None):
    slug = base_slug
    i = 2
    while True:
        q = model.query.filter(model.slug == slug)
        if exclude_id is not None:
            q = q.filter(model.id != exclude_id)
        exists = q.first()
        if not exists:
            return slug
        slug = f"{base_slug}-{i}"
        i += 1
```

The store is a list of rows with `id` and `slug` columns.  The candidate
probed on loop iteration `k` (0-based) is `base_slug` for `k = 0` and
`base_slug-(k+1)` afterwards.  The unbounded `while True` is embedded with
explicit fuel; `store.length + 1` probes always suffice (pigeonhole), which
is exactly the termination claim. -/

structure SlugRow where
  id : Nat
  slug : String
deriving DecidableEq

def slugTaken (store : List SlugRow) (excludeId : Option Nat) (s : String) : Bool :=
  store.any fun r =>
    r.slug == s &&
      (match excludeId with
        | some e => decide (r.id ≠ e)
        | none => true)

def slugCandidate (base : String) : Nat → String
  | 0 => base
  | k + 1 => base ++ "-" ++ natToDec (k + 2)

def ensureUniqueSlugAux (store : List SlugRow) (excludeId : Option Nat)
    (base : String) : Nat → Nat → Option String
  | 0, _ => none
  | fuel + 1, k =>
    if slugTaken store excludeId (slugCandidate base k) then
      ensureUniqueSlugAux store excludeId base fuel (k + 1)
    else
      some (slugCandidate base k)

def ensure_unique_slug (store : List SlugRow) (base_slug : String)
    (exclude_id : Option Nat) : String :=
  (ensureUniqueSlugAux store exclude_id base_slug (store.length + 1) 0).getD base_slug

/-! ### Post metadata (`PostMeta` rows and `Post.set_meta`, models.py)

```python
def set_meta(self, key, value):
    meta = PostMeta.query.filter_by(post_id=self.id, meta_key=key).first()
    if meta:
        meta.meta_value = str(value)
    else:
        meta = PostMeta(post_id=self.id, meta_key=key, meta_value=str(value))
        db.session.add(meta)
```

The `post_meta` table is a list of rows; `.first()` finds the first row
matching `(post_id, meta_key)` and the update mutates it in place, else a
fresh row is appended.  In the model, meta values are already strings, so
Python's `str(value)` is the identity. -/

structure MetaRow where
  post_id : Nat
  meta_key : String
  meta_value : String
deriving DecidableEq

def metaMatches (pid : Nat) (k : String) (r : MetaRow) : Bool :=
  r.post_id == pid && r.meta_key == k

def setMetaList (pid : Nat) (k v : String) : List MetaRow → List MetaRow
  | [] => [⟨pid, k, v⟩]
  | r :: rest =>
    if metaMatches pid k r then { r with meta_value := v } :: rest
    else r :: setMetaList pid k v rest

/-- The schema invariant on `post_meta`: at most one row per
`(post_id, meta_key)` pair, phrased as pairwise distinctness of keys. -/
def metaKeysDistinct (l : List MetaRow) : Prop :=
  l.Pairwise fun a b => ¬(a.post_id = b.post_id ∧ a.meta_key = b.meta_key)

instance (l : List MetaRow) : Decidable (metaKeysDistinct l) :=
  inferInstanceAs (Decidable (l.Pairwise fun (a b : MetaRow) =>
    ¬(a.post_id = b.post_id ∧ a.meta_key = b.meta_key)))

/-! ### The unified `Post` model (models.py lines 16-127)

Columns as in the source; nullable columns are `Option`, timestamps are
opaque instants modelled as `Nat` (the code only stores, compares and
renders them).  `category_obj` is the joined `Category` row,
`tag_items` the joined `Tag` rows of the `post_tags` association. -/

structure CategoryRow where
  id : Nat
  name : String
  slug : Option String
deriving DecidableEq

structure TagRow where
  id : Nat
  name : String
  slug : Option String
deriving DecidableEq

structure Post where
  id : Nat
  title : String
  slug : String
  content : String
  excerpt : Option String
  author : String
  post_type : String
  post_status : String
  post_parent : Option Nat
  user_id : Option Nat
  featured : Bool
  category_obj : Option CategoryRow
  tag_items : List TagRow
  created_at : Option Nat
  updated_at : Option Nat
  published_at : Option Nat
deriving DecidableEq

/-- models.py lines 64-67: the `published` property getter,
`self.post_status == 'publish'`. -/
def published (p : Post) : Bool :=
  p.post_status == "publish"

/-- models.py lines 69-72: the `published` property setter,
`self.post_status = 'publish' if value else 'draft'`. -/
def setPublished (p : Post) (value : Bool) : Post :=
  { p with post_status := if value then "publish" else "draft" }

/-! ### Publish transitions (admin routes)

admin/routes.py lines 132-135 (edit form, after the field updates):

```python
was_published = post.published
post.published = form.published.data
if form.published.data and not was_published:
    post.published_at = datetime.utcnow()
```

admin/routes.py lines 305-306 (the dedicated publish action, after the
ownership guard has passed; the guard leaves the post untouched when it
fails):

```python
post.published = True
post.published_at = datetime.utcnow()
```
-/

def adminEditPostPublish (p : Post) (formPublished : Bool) (now : Nat) : Post :=
  let was := published p
  let p := setPublished p formPublished
  if formPublished && !was then { p with published_at := some now } else p

def adminPublishPost (p : Post) (now : Nat) : Post :=
  let p := setPublished p true
  { p with published_at := some now }

/-! ### Serialization (`Post.to_dict`, models.py lines 102-127)

The produced mapping is modelled as an association list from key to a JSON
value.  `datetime.isoformat` is standard-library code outside this
repository; it is modelled as an injective rendering of the instant. -/

inductive JVal where
  | jNull
  | jStr (s : String)
  | jBool (b : Bool)
  | jNum (n : Nat)
  | jStrList (l : List String)
deriving DecidableEq

def isoFormat (t : Nat) : String :=
  natToDec t

def optIso : Option Nat → JVal
  | some t => .jStr (isoFormat t)
  | none => .jNull

def to_dict (p : Post) : List (String × JVal) :=
  let result : List (String × JVal) := [
    ("id", .jNum p.id),
    ("title", .jStr p.title),
    ("slug", .jStr p.slug),
    ("content", .jStr p.content),
    ("excerpt", match p.excerpt with | some e => .jStr e | none => .jNull),
    ("author", .jStr p.author),
    ("post_type", .jStr p.post_type),
    ("post_status", .jStr p.post_status),
    ("post_parent", match p.post_parent with | some q => .jNum q | none => .jNull),
    ("published", .jBool (published p)),
    ("featured", .jBool p.featured),
    ("created_at", optIso p.created_at),
    ("updated_at", optIso p.updated_at),
    ("published_at", optIso p.published_at)]
  let result := match p.category_obj with
    | some c => result ++ [("category", .jStr c.name)]
    | none => result
  match p.tag_items with
  | [] => result
  | _ => result ++ [("tags", .jStrList (p.tag_items.map (·.name)))]

/-! ### Tag attachment (admin/routes.py lines 121-131)

```python
post.tag_items.clear()
tag_names = [t.strip() for t in (form.tags.data or "").split(',') if t.strip()]
if tag_names:
    existing = {t.name: t for t in Tag.query.filter(Tag.name.in_(tag_names)).all()}
    for name in tag_names:
        tag = existing.get(name)
        if not tag:
            tag = Tag(name=name)
            db.session.add(tag)
        post.tag_items.append(tag)
```

The `existing` dictionary is computed once from the tag store before the
loop, so the fold below looks names up in the original store; tags created
inside the loop are appended to the store but never to the lookup.  Fresh
tags receive consecutive new ids. -/

/-- Python `str.split(',')`: split on every comma; `"".split(',') == [""]`. -/
def splitComma : List Char → List (List Char)
  | [] => [[]]
  | c :: rest =>
    match splitComma rest with
    | [] => [[c]]
    | g :: gs => if c == ',' then [] :: g :: gs else (c :: g) :: gs

def parseTagNames (s : String) : List String :=
  (((splitComma s.data).map (fun g => pyStrip g)).filter
      (fun g => !g.isEmpty)).map (fun g => (⟨g⟩ : String))

def attachTagsStep (store : List TagRow)
    (acc : List TagRow × List TagRow × Nat) (name : String) :
    List TagRow × List TagRow × Nat :=
  match store.find? (fun t => t.name == name) with
  | some t => (acc.1 ++ [t], acc.2.1, acc.2.2)
  | none =>
    let t : TagRow := ⟨acc.2.2, name, none⟩
    (acc.1 ++ [t], acc.2.1 ++ [t], acc.2.2 + 1)

/-- Result: (new `post.tag_items`, new tag store, next fresh id).  The
previous `tag_items` are discarded by `post.tag_items.clear()` before the
loop, hence the fold starts from `[]` whatever `prevItems` was. -/
def adminEditPostTags (prevItems : List TagRow) (store : List TagRow)
    (nextId : Nat) (tagsField : String) :
    List TagRow × List TagRow × Nat :=
  (parseTagNames tagsField).foldl (attachTagsStep store) ([], store, nextId)

/-! ### Category/Tag delete guards (admin/routes.py lines 205-222, 270-287)

```python
cat = Category.query.get_or_404(cat_id)
if cat.posts:
    flash('Cannot delete a category in use by posts.', 'error')
    return redirect(...)
db.session.delete(cat)
```

and symmetrically for tags (`if tag.posts: ...`).  `cat.posts` is the
backref collection: the posts whose `category_id` is this category;
`tag.posts` are the posts whose `post_tags` rows reference the tag. -/

structure TaxPost where
  id : Nat
  category_id : Option Nat
  tag_ids : List Nat
deriving DecidableEq

structure TaxState where
  posts : List TaxPost
  categories : List CategoryRow
  tags : List TagRow
deriving DecidableEq

inductive DelOutcome where
  | notFound
  | refused
  | deleted
deriving DecidableEq

def categoryInUse (st : TaxState) (cid : Nat) : Bool :=
  st.posts.any fun p => p.category_id == some cid

def tagInUse (st : TaxState) (tid : Nat) : Bool :=
  st.posts.any fun p => p.tag_ids.contains tid

def adminDeleteCategory (st : TaxState) (cid : Nat) : TaxState × DelOutcome :=
  match st.categories.find? (fun c => c.id == cid) with
  | none => (st, .notFound)
  | some _ =>
    if categoryInUse st cid then (st, .refused)
    else ({ st with categories := st.categories.filter fun c => !(c.id == cid) }, .deleted)

def adminDeleteTag (st : TaxState) (tid : Nat) : TaxState × DelOutcome :=
  match st.tags.find? (fun t => t.id == tid) with
  | none => (st, .notFound)
  | some _ =>
    if tagInUse st tid then (st, .refused)
    else ({ st with tags := st.tags.filter fun t => !(t.id == tid) }, .deleted)

/-! ### Scheduled publication sweep (cli.py lines 48-67)

```python
now = datetime.utcnow()
posts = (Post.query
    .filter(Post.post_type == 'post')
    .filter(Post.post_status == 'draft')
    .filter(Post.published_at.isnot(None))
    .filter(Post.published_at <= now)
    .all())
count = 0
for p in posts:
    p.post_status = 'publish'
    count += 1
db.session.commit()
```

At table level: every row satisfying the filter has its `post_status` set
to `'publish'`; the reported count is the number of such rows. -/

def isDue (now : Nat) (p : Post) : Bool :=
  p.post_type == "post" && p.post_status == "draft" &&
    (match p.published_at with
      | some t => decide (t ≤ now)
      | none => false)

def publishScheduled (posts : List Post) (now : Nat) : List Post × Nat :=
  (posts.map fun p => if isDue now p then { p with post_status := "publish" } else p,
   (posts.filter (isDue now)).length)

/-! ### Fixtures and auxiliary predicates used by the theorems below -/

/-- No two consecutive hyphens: the relation required between adjacent
characters of a slug. -/
def noDDRel (a b : Char) : Prop :=
  ¬(a = '-' ∧ b = '-')

instance (a b : Char) : Decidable (noDDRel a b) :=
  inferInstanceAs (Decidable (¬(a = '-' ∧ b = '-')))

/-- A concrete already-published post: `post_status = "publish"`,
`published_at = some 5`. -/
def samplePublishedPost : Post :=
  ⟨1, "Hello", "hello", "Body", none, "Admin", "post", "publish", none,
    some 1, false, none, [], some 1, some 1, some 5⟩

/-- A concrete taxonomy state: category 10 and tag 20 are referenced by the
single post, category 11 and tag 21 are unreferenced. -/
def sampleTaxState : TaxState :=
  ⟨[⟨1, some 10, [20]⟩],
   [⟨10, "news", none⟩, ⟨11, "misc", none⟩],
   [⟨20, "python", none⟩, ⟨21, "flask", none⟩]⟩

/-! ## Supporting lemmas: decimal rendering -/

theorem decVal_decDigit {d : Nat} (h : d < 10) : decVal (decDigit d) = d := by
  interval_cases d <;> rfl

theorem decParse_append (l : List Char) (c : Char) :
    decParse (l ++ [c]) = 10 * decParse l + decVal c := by
  simp [decParse, List.foldl_append]

theorem decParse_decDigitsAux :
    ∀ fuel n, n < fuel → decParse (decDigitsAux fuel n) = n := by
  intro fuel
  induction fuel with
  | zero => intro n h; omega
  | succ f ih =>
    intro n h
    by_cases h10 : n < 10
    · simp only [decDigitsAux, if_pos h10]
      simpa [decParse] using decVal_decDigit h10
    · have hdiv : n / 10 < f := by
        have h1 : n / 10 < n := Nat.div_lt_self (by omega) (by omega)
        omega
      simp only [decDigitsAux, if_neg h10]
      rw [decParse_append, ih (n / 10) hdiv, decVal_decDigit (Nat.mod_lt n (by omega))]
      omega

theorem decParse_decDigits (n : Nat) : decParse (decDigits n) = n :=
  decParse_decDigitsAux (n + 1) n (Nat.lt_succ_self n)

theorem natToDec_inj {a b : Nat} (h : natToDec a = natToDec b) : a = b := by
  have hd : decDigits a = decDigits b := congrArg String.data h
  have hp := congrArg decParse hd
  rwa [decParse_decDigits, decParse_decDigits] at hp

/-! ## Supporting lemmas: slug candidates are pairwise distinct -/

theorem slugCandidate_data (base : String) (k : Nat) :
    (slugCandidate base (k + 1)).data = base.data ++ '-' :: decDigits (k + 2) := by
  show (base ++ "-" ++ natToDec (k + 2)).data = _
  rw [String.data_append, String.data_append]
  simp [natToDec]

theorem slugCandidate_inj (base : String) {a b : Nat}
    (h : slugCandidate base a = slugCandidate base b) : a = b := by
  match a, b with
  | 0, 0 => rfl
  | 0, b + 1 =>
    exfalso
    have hd := congrArg String.data h
    rw [show slugCandidate base 0 = base from rfl, slugCandidate_data] at hd
    have hlen := congrArg List.length hd
    simp [List.length_append] at hlen
  | a + 1, 0 =>
    exfalso
    have hd := congrArg String.data h.symm
    rw [show slugCandidate base 0 = base from rfl, slugCandidate_data] at hd
    have hlen := congrArg List.length hd
    simp [List.length_append] at hlen
  | a + 1, b + 1 =>
    have hd := congrArg String.data h
    rw [slugCandidate_data, slugCandidate_data] at hd
    have h2 := List.append_cancel_left hd
    have h3 : decDigits (a + 2) = decDigits (b + 2) := by
      injection h2
    have h4 := congrArg decParse h3
    rw [decParse_decDigits, decParse_decDigits] at h4
    omega

/-! ## Supporting lemmas: the probe loop terminates (pigeonhole) -/

theorem slugTaken_mem {store : List SlugRow} {ex : Option Nat} {s : String}
    (h : slugTaken store ex s = true) : s ∈ store.map (·.slug) := by
  unfold slugTaken at h
  rw [List.any_eq_true] at h
  obtain ⟨r, hr, hcond⟩ := h
  rw [Bool.and_eq_true] at hcond
  have hrs : r.slug = s := eq_of_beq hcond.1
  exact hrs ▸ List.mem_map_of_mem (·.slug) hr

theorem exists_free_candidate (store : List SlugRow) (ex : Option Nat) (base : String) :
    ∃ j, j < store.length + 1 ∧ slugTaken store ex (slugCandidate base j) = false := by
  by_contra hcon
  push_neg at hcon
  have htaken : ∀ j, j < store.length + 1 →
      slugTaken store ex (slugCandidate base j) = true := by
    intro j hj
    rcases Bool.eq_false_or_eq_true (slugTaken store ex (slugCandidate base j)) with h0 | h1
    · exact h0
    · exact absurd h1 (hcon j hj)
  set L := (List.range (store.length + 1)).map (slugCandidate base) with hL
  have hnodup : L.Nodup :=
    List.Nodup.map (fun x y hxy => slugCandidate_inj base hxy) (List.nodup_range _)
  have hsub : ∀ s ∈ L, s ∈ store.map (·.slug) := by
    intro s hs
    rw [hL, List.mem_map] at hs
    obtain ⟨j, hj, rfl⟩ := hs
    exact slugTaken_mem (htaken j (List.mem_range.mp hj))
  have h1 : L.toFinset.card = L.length := List.toFinset_card_of_nodup hnodup
  have h2 : L.toFinset ⊆ (store.map (·.slug)).toFinset := by
    intro s hs
    rw [List.mem_toFinset] at hs ⊢
    exact hsub s hs
  have h3 := Finset.card_le_card h2
  have h4 := List.toFinset_card_le (store.map (·.slug))
  have h5 : L.length = store.length + 1 := by simp [hL]
  have h6 : (store.map (·.slug)).length = store.length := by simp
  omega

theorem ensureUniqueSlugAux_some (store : List SlugRow) (ex : Option Nat) (base : String) :
    ∀ fuel k, (∃ j, j < fuel ∧ slugTaken store ex (slugCandidate base (k + j)) = false) →
      ∃ s, ensureUniqueSlugAux store ex base fuel k = some s := by
  intro fuel
  induction fuel with
  | zero =>
    intro k h
    obtain ⟨j, hj, _⟩ := h
    omega
  | succ f ih =>
    intro k h
    by_cases ht : slugTaken store ex (slugCandidate base k) = true
    · obtain ⟨j, hj, hfree⟩ := h
      match j with
      | 0 =>
        rw [Nat.add_zero, ht] at hfree
        cases hfree
      | j' + 1 =>
        have hnext : ∃ j, j < f ∧
            slugTaken store ex (slugCandidate base ((k + 1) + j)) = false := by
          refine ⟨j', by omega, ?_⟩
          rw [show (k + 1) + j' = k + (j' + 1) from by omega]
          exact hfree
        obtain ⟨s, hs⟩ := ih (k + 1) hnext
        exact ⟨s, by simp [ensureUniqueSlugAux, ht, hs]⟩
    · have hf : slugTaken store ex (slugCandidate base k) = false := by
        rcases Bool.eq_false_or_eq_true (slugTaken store ex (slugCandidate base k)) with h0 | h1
        · exact absurd h0 ht
        · exact h1
      exact ⟨slugCandidate base k, by simp [ensureUniqueSlugAux, hf]⟩

theorem ensureUniqueSlugAux_spec (store : List SlugRow) (ex : Option Nat) (base : String) :
    ∀ fuel k s, ensureUniqueSlugAux store ex base fuel k = some s →
      (∀ j, j < k → slugTaken store ex (slugCandidate base j) = true) →
      ∃ m, s = slugCandidate base m ∧ slugTaken store ex (slugCandidate base m) = false ∧
        ∀ j, j < m → slugTaken store ex (slugCandidate base j) = true := by
  intro fuel
  induction fuel with
  | zero =>
    intro k s h _
    simp [ensureUniqueSlugAux] at h
  | succ f ih =>
    intro k s h hprev
    by_cases ht : slugTaken store ex (slugCandidate base k) = true
    · rw [show ensureUniqueSlugAux store ex base (f + 1) k =
          ensureUniqueSlugAux store ex base f (k + 1) from by simp [ensureUniqueSlugAux, ht]] at h
      refine ih (k + 1) s h ?_
      intro j hj
      rcases Nat.lt_succ_iff_lt_or_eq.mp hj with h1 | h1
      · exact hprev j h1
      · exact h1 ▸ ht
    · have hf : slugTaken store ex (slugCandidate base k) = false := by
        rcases Bool.eq_false_or_eq_true (slugTaken store ex (slugCandidate base k)) with h0 | h1
        · exact absurd h0 ht
        · exact h1
      have hs : s = slugCandidate base k := by
        simp [ensureUniqueSlugAux, hf] at h
        exact h.symm
      exact ⟨k, hs, hf, hprev⟩

/-- Claim C8: `ensure_unique_slug` terminates for every base slug, every
exclusion id and every finite slug store: some candidate in the sequence
`base, base-2, base-3, …` is absent from the store (the candidates are
pairwise distinct while the store is finite), and the probe loop, given
`store.length + 1` probes of fuel, always returns a result. -/
theorem c8_ensure_unique_slug_terminates (store : List SlugRow) (ex : Option Nat)
    (base : String) :
    (∃ k, slugTaken store ex (slugCandidate base k) = false) ∧
    (ensureUniqueSlugAux store ex base (store.length + 1) 0).isSome = true := by
  obtain ⟨j, hj, hfree⟩ := exists_free_candidate store ex base
  refine ⟨⟨j, hfree⟩, ?_⟩
  obtain ⟨s, hs⟩ := ensureUniqueSlugAux_some store ex base (store.length + 1) 0
    ⟨j, hj, by simpa using hfree⟩
  rw [hs]
  rfl

/-- Claim C2: for every finite store of slugs, base slug and optional
excluded id, `ensure_unique_slug` returns the first candidate of the
sequence `base, base-2, base-3, …` held by no non-excluded row; if the
base is free it returns the base itself, and against a store containing
exactly `my-post` and `my-post-2` it returns `my-post-3`. -/
theorem c2_ensure_unique_slug_first_free (store : List SlugRow) (base : String)
    (ex : Option Nat) :
    (∃ m, ensure_unique_slug store base ex = slugCandidate base m ∧
       slugTaken store ex (slugCandidate base m) = false ∧
       ∀ j, j < m → slugTaken store ex (slugCandidate base j) = true) ∧
    (slugTaken store ex base = false → ensure_unique_slug store base ex = base) ∧
    ensure_unique_slug [⟨1, "my-post"⟩, ⟨2, "my-post-2"⟩] "my-post" none = "my-post-3" := by
  obtain ⟨j, hj, hfree⟩ := exists_free_candidate store ex base
  obtain ⟨s, hs⟩ := ensureUniqueSlugAux_some store ex base (store.length + 1) 0
    ⟨j, hj, by simpa using hfree⟩
  have hresult : ensure_unique_slug store base ex = s := by
    simp [ensure_unique_slug, hs]
  obtain ⟨m, hm1, hm2, hm3⟩ := ensureUniqueSlugAux_spec store ex base (store.length + 1) 0 s hs
    (fun j hj => absurd hj (Nat.not_lt_zero j))
  refine ⟨⟨m, by rw [hresult, hm1], hm2, hm3⟩, ?_, ?_⟩
  · intro hbase
    rcases m with _ | m'
    · rw [hresult, hm1]
      rfl
    · exfalso
      have h0 := hm3 0 (Nat.succ_pos m')
      rw [show slugCandidate base 0 = base from rfl, hbase] at h0
      cases h0
  · decide

/-- Witness for C2 at a concrete free base slug and empty store. -/
theorem c2_witness : ensure_unique_slug [] "post" none = "post" := by
  have h := c2_ensure_unique_slug_first_free [] "post" none
  exact h.2.1 (by decide)

/-! ## Supporting lemmas: slug normalisation -/

theorem bool_false_of_not_true {b : Bool} (h : ¬(b = true)) : b = false := by
  rcases Bool.eq_false_or_eq_true b with h1 | h1
  · exact absurd h1 h
  · exact h1

theorem bang_eq_false {b : Bool} (h : (!b) = false) : b = true := by
  cases b
  · simp at h
  · rfl

theorem isSlugChar_ne_dash {c : Char} (h : isSlugChar c = true) : c ≠ '-' := by
  intro he
  subst he
  exact absurd h (by decide)

theorem collapseAux_mem : ∀ fuel l c, c ∈ collapseAux fuel l → isSlugChar c = true ∨ c = '-' := by
  intro fuel
  induction fuel with
  | zero =>
    intro l c h
    simp [collapseAux] at h
  | succ f ih =>
    intro l c h
    match l with
    | [] => simp [collapseAux] at h
    | d :: rest =>
      by_cases hd : isSlugChar d
      · rw [collapseAux, if_pos hd] at h
        rcases List.mem_cons.mp h with h1 | h1
        · exact Or.inl (h1 ▸ hd)
        · exact ih rest c h1
      · rw [collapseAux, if_neg hd] at h
        rcases List.mem_cons.mp h with h1 | h1
        · exact Or.inr h1
        · exact ih _ c h1

theorem head?_dropWhile_false (p : Char → Bool) :
    ∀ (l : List Char) (d : Char), (l.dropWhile p).head? = some d → p d = false := by
  intro l
  induction l with
  | nil =>
    intro d h
    simp at h
  | cons a t ih =>
    intro d h
    rw [List.dropWhile_cons] at h
    by_cases hp : p a
    · rw [if_pos hp] at h
      exact ih d h
    · rw [if_neg hp] at h
      rw [List.head?_cons] at h
      cases h
      exact bool_false_of_not_true hp

theorem collapseAux_head_slug :
    ∀ fuel l, (∀ d, l.head? = some d → isSlugChar d = true) →
      ∀ d, (collapseAux fuel l).head? = some d → isSlugChar d = true := by
  intro fuel l hl d hd
  match fuel, l with
  | 0, _ => simp [collapseAux] at hd
  | f + 1, [] => simp [collapseAux] at hd
  | f + 1, c :: rest =>
    have hc : isSlugChar c = true := hl c rfl
    rw [collapseAux, if_pos hc, List.head?_cons] at hd
    cases hd
    exact hc

theorem collapseAux_chain' : ∀ fuel l, List.Chain' noDDRel (collapseAux fuel l) := by
  intro fuel
  induction fuel with
  | zero =>
    intro l
    exact List.chain'_nil
  | succ f ih =>
    intro l
    match l with
    | [] => exact List.chain'_nil
    | c :: rest =>
      by_cases hc : isSlugChar c
      · rw [collapseAux, if_pos hc]
        refine List.chain'_cons'.mpr ⟨?_, ih rest⟩
        intro y _
        intro hpair
        exact isSlugChar_ne_dash hc hpair.1
      · rw [collapseAux, if_neg hc]
        refine List.chain'_cons'.mpr ⟨?_, ih _⟩
        intro y hy
        intro hpair
        have hyslug : isSlugChar y = true := by
          refine collapseAux_head_slug f _ ?_ y hy
          intro d hd
          exact bang_eq_false (head?_dropWhile_false _ rest d hd)
        exact isSlugChar_ne_dash hyslug hpair.2

theorem noDDRel_symm (a b : Char) (h : noDDRel a b) : noDDRel b a := by
  intro hpair
  exact h ⟨hpair.2, hpair.1⟩

theorem chain'_dropWhile {R : Char → Char → Prop} (p : Char → Bool) :
    ∀ l, List.Chain' R l → List.Chain' R (l.dropWhile p) := by
  intro l
  induction l with
  | nil =>
    intro h
    simp
  | cons a t ih =>
    intro h
    rw [List.dropWhile_cons]
    by_cases hp : p a
    · rw [if_pos hp]
      exact ih (List.chain'_cons'.mp h).2
    · rw [if_neg hp]
      exact h

theorem chain'_reverse_noDD {l : List Char} (h : List.Chain' noDDRel l) :
    List.Chain' noDDRel l.reverse := by
  rw [List.chain'_reverse]
  exact h.imp fun a b hab => noDDRel_symm a b hab

theorem chain'_stripDashes (l : List Char) (h : List.Chain' noDDRel l) :
    List.Chain' noDDRel (stripDashes l) := by
  unfold stripDashes
  exact chain'_reverse_noDD (chain'_dropWhile isDash _ (chain'_reverse_noDD (chain'_dropWhile isDash l h)))

theorem mem_dropWhile (p : Char → Bool) :
    ∀ (l : List Char) (c : Char), c ∈ l.dropWhile p → c ∈ l := by
  intro l
  induction l with
  | nil =>
    intro c h
    simp at h
  | cons a t ih =>
    intro c h
    rw [List.dropWhile_cons] at h
    by_cases hp : p a
    · rw [if_pos hp] at h
      exact List.mem_cons_of_mem a (ih c h)
    · rw [if_neg hp] at h
      exact h

theorem mem_stripDashes (l : List Char) (c : Char) (h : c ∈ stripDashes l) : c ∈ l := by
  unfold stripDashes at h
  rw [List.mem_reverse] at h
  have h2 := mem_dropWhile isDash _ c h
  rw [List.mem_reverse] at h2
  exact mem_dropWhile isDash l c h2

theorem getLast?_dropWhile_ne_nil (p : Char → Bool) :
    ∀ (l : List Char), l.dropWhile p ≠ [] → (l.dropWhile p).getLast? = l.getLast? := by
  intro l
  induction l with
  | nil =>
    intro h
    simp at h
  | cons a t ih =>
    intro h
    rw [List.dropWhile_cons] at h ⊢
    by_cases hp : p a
    · rw [if_pos hp] at h ⊢
      have ht : t ≠ [] := by
        intro h0
        subst h0
        simp at h
      obtain ⟨b, t', rfl⟩ := List.exists_cons_of_ne_nil ht
      rw [ih h, List.getLast?_cons_cons]
    · rw [if_neg hp]

theorem head?_stripDashes_not_dash (l : List Char) : (stripDashes l).head? ≠ some '-' := by
  intro h
  unfold stripDashes at h
  rw [List.head?_reverse] at h
  have hne : ((l.dropWhile isDash).reverse.dropWhile isDash) ≠ [] := by
    intro h0
    rw [h0] at h
    simp at h
  rw [getLast?_dropWhile_ne_nil isDash _ hne, List.getLast?_reverse] at h
  have hfalse := head?_dropWhile_false isDash l '-' h
  simp [isDash] at hfalse

theorem getLast?_stripDashes_not_dash (l : List Char) :
    (stripDashes l).getLast? ≠ some '-' := by
  intro h
  unfold stripDashes at h
  rw [List.getLast?_reverse] at h
  have hfalse := head?_dropWhile_false isDash _ '-' h
  simp [isDash] at hfalse

/-- Claim C7: for every input string, `slugify` returns a non-empty string
containing only lowercase ASCII alphanumerics and hyphens, with no two
consecutive hyphens and with neither a leading nor a trailing hyphen; when
normalisation yields nothing, the fixed placeholder `"item"` is returned. -/
theorem c7_slugify_shape (text : String) :
    slugify text ≠ "" ∧
    (∀ c ∈ (slugify text).data, isSlugChar c = true ∨ c = '-') ∧
    List.Chain' noDDRel (slugify text).data ∧
    (slugify text).data.head? ≠ some '-' ∧
    (slugify text).data.getLast? ≠ some '-' ∧
    (stripDashes (collapseNonSlug ((pyStrip text.data).map Char.toLower)) = [] →
      slugify text = "item") := by
  unfold slugify
  set base := (pyStrip text.data).map Char.toLower with hbase
  set res := stripDashes (collapseNonSlug base) with hres
  by_cases hempty : res.isEmpty
  · rw [if_pos hempty]
    refine ⟨by decide, by decide, ?_, by decide, by decide, fun _ => rfl⟩
    show List.Chain' noDDRel ("item".data)
    rw [show ("item".data) = ['i', 't', 'e', 'm'] from rfl]
    simp [List.chain'_cons, List.chain'_singleton, noDDRel]
  · rw [if_neg hempty]
    have hne : res ≠ [] := by
      intro h0
      rw [h0] at hempty
      exact hempty rfl
    refine ⟨?_, ?_, ?_, ?_, ?_, ?_⟩
    · intro h0
      have hdata := congrArg String.data h0
      simp at hdata
      exact hne hdata
    · intro c hc
      exact collapseAux_mem _ _ c (mem_stripDashes _ c hc)
    · exact chain'_stripDashes _ (collapseAux_chain' _ _)
    · exact head?_stripDashes_not_dash _
    · exact getLast?_stripDashes_not_dash _
    · intro h0
      exact absurd h0 hne

/-- Witness for C7: a string that normalises to nothing returns the
placeholder. -/
theorem c7_witness : slugify "!!!" = "item" := by
  have h := c7_slugify_shape "!!!"
  exact h.2.2.2.2.2 (by decide)

/-- Claim C1 (amended): on the edit path, `published_at` is stamped exactly
when the form value transitions the post from non-published to published,
repeated publish saves leave it unchanged, and no transition clears it; the
dedicated publish action, however, re-stamps `published_at` with the current
time on every call, even when the post is already published. -/
theorem c1_published_at_stamping (p : Post) (v : Bool) (now : Nat) :
    (adminEditPostPublish p v now).published_at =
      (if v && !(published p) then some now else p.published_at) ∧
    (adminEditPostPublish p v now).post_status = (if v then "publish" else "draft") ∧
    (adminPublishPost p now).published_at = some now ∧
    (adminPublishPost p now).post_status = "publish" := by
  by_cases h : (v && !(published p)) = true
  · simp [adminEditPostPublish, adminPublishPost, setPublished, h]
  · simp [adminEditPostPublish, adminPublishPost, setPublished, h]

/-- Claim C1 counterexample: a post that is already published
(`post_status = "publish"`, `published_at = some 5`) and is published again
through the dedicated publish action at time 9 gets `published_at = some 9`
— the later publish call does not leave `published_at` unchanged. -/
theorem c1_counterexample :
    published samplePublishedPost = true ∧
    (adminPublishPost samplePublishedPost 9).published_at ≠
      samplePublishedPost.published_at := by
  decide

/-- Claim C10: assigning `False` to the `published` property always sets
`post_status` to `draft` (in particular a `private` post becomes `draft`),
assigning `True` always sets it to `publish`, and a get-then-set round trip
maps every non-`publish` status (including `private`) to `draft`. -/
theorem c10_published_setter (p : Post) :
    (setPublished p false).post_status = "draft" ∧
    (setPublished p true).post_status = "publish" ∧
    (setPublished p (published p)).post_status =
      (if p.post_status == "publish" then "publish" else "draft") := by
  refine ⟨rfl, rfl, ?_⟩
  unfold setPublished published
  rfl

/-- Claim C6: the scheduled-publication sweep flips to `publish` exactly the
posts of type `post` in status `draft` whose `published_at` is set and at or
before `now`, reports their count, changes nothing else, and is idempotent:
a second run at the same time publishes zero posts and leaves the store
unchanged. -/
theorem c6_publish_scheduled_sweep (posts : List Post) (now : Nat) :
    (publishScheduled posts now).1.length = posts.length ∧
    (∀ i : Nat, (publishScheduled posts now).1[i]? =
      (posts[i]?).map fun p =>
        if isDue now p then { p with post_status := "publish" } else p) ∧
    (publishScheduled posts now).2 = (posts.filter (isDue now)).length ∧
    publishScheduled (publishScheduled posts now).1 now =
      ((publishScheduled posts now).1, 0) := by
  refine ⟨by simp [publishScheduled], ?_, rfl, ?_⟩
  · intro i
    simp [publishScheduled]
  · set l' := (publishScheduled posts now).1 with hl'
    have hnotdue : ∀ q ∈ l', isDue now q = false := by
      intro q hq
      rw [hl'] at hq
      simp only [publishScheduled, List.mem_map] at hq
      obtain ⟨p0, hp0, rfl⟩ := hq
      by_cases hd : isDue now p0
      · rw [if_pos hd]
        simp [isDue]
      · rw [if_neg hd]
        exact bool_false_of_not_true hd
    have h1 : l'.map (fun p => if isDue now p then { p with post_status := "publish" } else p)
        = l' := by
      conv_rhs => rw [← List.map_id l']
      refine List.map_congr_left ?_
      intro q hq
      simp [hnotdue q hq]
    have h2 : l'.filter (isDue now) = [] :=
      List.filter_eq_nil_iff.mpr fun q hq => by simp [hnotdue q hq]
    show publishScheduled l' now = (l', 0)
    unfold publishScheduled
    rw [h1, h2]
    rfl

/-! ## Supporting lemmas: set_meta -/

theorem metaMatches_fields {pid : Nat} {k : String} {r : MetaRow}
    (h : metaMatches pid k r = true) : r.post_id = pid ∧ r.meta_key = k := by
  unfold metaMatches at h
  rw [Bool.and_eq_true] at h
  exact ⟨eq_of_beq h.1, eq_of_beq h.2⟩

theorem setMetaList_filter (pid : Nat) (k v : String) :
    ∀ store, metaKeysDistinct store →
      (setMetaList pid k v store).filter (metaMatches pid k) = [⟨pid, k, v⟩] := by
  intro store
  induction store with
  | nil =>
    intro _
    simp [setMetaList, List.filter, metaMatches]
  | cons r rest ih =>
    intro hdist
    rw [metaKeysDistinct, List.pairwise_cons] at hdist
    obtain ⟨hhead, htail⟩ := hdist
    by_cases hm : metaMatches pid k r = true
    · obtain ⟨hpid, hkey⟩ := metaMatches_fields hm
      rw [setMetaList, if_pos hm, List.filter_cons]
      have hm2 : metaMatches pid k { r with meta_value := v } = true := hm
      rw [if_pos hm2]
      have hrest : rest.filter (metaMatches pid k) = [] := by
        refine List.filter_eq_nil_iff.mpr ?_
        intro b hb hmb
        obtain ⟨hbpid, hbkey⟩ := metaMatches_fields hmb
        exact hhead b hb ⟨by rw [hpid, hbpid], by rw [hkey, hbkey]⟩
      rw [hrest]
      have hrow : ({ r with meta_value := v } : MetaRow) = ⟨pid, k, v⟩ := by
        rw [← hpid, ← hkey]
      rw [hrow]
    · rw [setMetaList, if_neg hm, List.filter_cons, if_neg hm]
      exact ih (by rw [metaKeysDistinct]; exact htail)

theorem setMetaList_mem_keys (pid : Nat) (k v : String) :
    ∀ store b, b ∈ setMetaList pid k v store →
      (∃ a ∈ store, b.post_id = a.post_id ∧ b.meta_key = a.meta_key) ∨
      (b.post_id = pid ∧ b.meta_key = k) := by
  intro store
  induction store with
  | nil =>
    intro b hb
    simp [setMetaList] at hb
    exact Or.inr (by rw [hb]; exact ⟨rfl, rfl⟩)
  | cons r rest ih =>
    intro b hb
    by_cases hm : metaMatches pid k r = true
    · rw [setMetaList, if_pos hm] at hb
      rcases List.mem_cons.mp hb with h1 | h1
      · exact Or.inl ⟨r, List.mem_cons_self r rest, by rw [h1], by rw [h1]⟩
      · exact Or.inl ⟨b, List.mem_cons_of_mem r h1, rfl, rfl⟩
    · rw [setMetaList, if_neg hm] at hb
      rcases List.mem_cons.mp hb with h1 | h1
      · exact Or.inl ⟨r, List.mem_cons_self r rest, by rw [h1], by rw [h1]⟩
      · rcases ih b h1 with h2 | h2
        · obtain ⟨a, ha, he⟩ := h2
          exact Or.inl ⟨a, List.mem_cons_of_mem r ha, he⟩
        · exact Or.inr h2

theorem setMetaList_distinct (pid : Nat) (k v : String) :
    ∀ store, metaKeysDistinct store → metaKeysDistinct (setMetaList pid k v store) := by
  intro store
  induction store with
  | nil =>
    intro _
    simp [setMetaList, metaKeysDistinct]
  | cons r rest ih =>
    intro hdist
    rw [metaKeysDistinct, List.pairwise_cons] at hdist
    obtain ⟨hhead, htail⟩ := hdist
    by_cases hm : metaMatches pid k r = true
    · rw [setMetaList, if_pos hm, metaKeysDistinct, List.pairwise_cons]
      exact ⟨fun b hb => hhead b hb, htail⟩
    · rw [setMetaList, if_neg hm, metaKeysDistinct, List.pairwise_cons]
      refine ⟨?_, ih (by rw [metaKeysDistinct]; exact htail)⟩
      intro b hb
      rcases setMetaList_mem_keys pid k v rest b hb with h2 | h2
      · obtain ⟨a, ha, he1, he2⟩ := h2
        intro hcon
        exact hhead a ha ⟨by rw [hcon.1, he1], by rw [hcon.2, he2]⟩
      · intro hcon
        apply hm
        unfold metaMatches
        rw [Bool.and_eq_true]
        exact ⟨beq_iff_eq.mpr (hcon.1.trans h2.1), beq_iff_eq.mpr (hcon.2.trans h2.2)⟩

/-- Claim C3: under the schema invariant (at most one `PostMeta` row per
`(post_id, meta_key)` pair), calling `set_meta` with `v1` and then `v2` for
the same post and key leaves exactly one row for that pair, holding `v2`,
and preserves the invariant — set overwrites in place, never duplicates. -/
theorem c3_set_meta_upsert (store : List MetaRow) (pid : Nat) (k v1 v2 : String)
    (hdist : metaKeysDistinct store) :
    (setMetaList pid k v2 (setMetaList pid k v1 store)).filter (metaMatches pid k) =
      [⟨pid, k, v2⟩] ∧
    metaKeysDistinct (setMetaList pid k v2 (setMetaList pid k v1 store)) := by
  have h1 := setMetaList_distinct pid k v1 store hdist
  exact ⟨setMetaList_filter pid k v2 _ h1, setMetaList_distinct pid k v2 _ h1⟩

/-- Witness for C3 at a concrete store satisfying the invariant. -/
theorem c3_witness :
    (setMetaList 1 "k" "v2" (setMetaList 1 "k" "v1" [⟨1, "other", "x"⟩])).filter
      (metaMatches 1 "k") = [⟨1, "k", "v2"⟩] :=
  (c3_set_meta_upsert [⟨1, "other", "x"⟩] 1 "k" "v1" "v2" (by decide)).1

/-- Claim C9: `to_dict` always contains the core keys with their stated
types — `id`, `title`, `slug`, `content`, `excerpt`, `author`, `post_type`,
`post_status`, `post_parent`, `featured`, the computed `published` boolean
equal to `post_status == "publish"`, and the three timestamps rendered as
ISO strings or null when unset — while `category` (the category name) and
`tags` (the tag name list) are present exactly when the post has a category
respectively at least one tag. -/
theorem c9_to_dict_shape (p : Post) :
    (to_dict p).lookup "id" = some (.jNum p.id) ∧
    (to_dict p).lookup "title" = some (.jStr p.title) ∧
    (to_dict p).lookup "slug" = some (.jStr p.slug) ∧
    (to_dict p).lookup "content" = some (.jStr p.content) ∧
    (to_dict p).lookup "excerpt" =
      some (match p.excerpt with | some e => .jStr e | none => .jNull) ∧
    (to_dict p).lookup "author" = some (.jStr p.author) ∧
    (to_dict p).lookup "post_type" = some (.jStr p.post_type) ∧
    (to_dict p).lookup "post_status" = some (.jStr p.post_status) ∧
    (to_dict p).lookup "post_parent" =
      some (match p.post_parent with | some q => .jNum q | none => .jNull) ∧
    (to_dict p).lookup "published" = some (.jBool (p.post_status == "publish")) ∧
    (to_dict p).lookup "featured" = some (.jBool p.featured) ∧
    (to_dict p).lookup "created_at" = some (optIso p.created_at) ∧
    (to_dict p).lookup "updated_at" = some (optIso p.updated_at) ∧
    (to_dict p).lookup "published_at" = some (optIso p.published_at) ∧
    (to_dict p).lookup "category" = p.category_obj.map (fun c => JVal.jStr c.name) ∧
    (to_dict p).lookup "tags" =
      (if p.tag_items.isEmpty then none
       else some (.jStrList (p.tag_items.map (·.name)))) := by
  rcases hc : p.category_obj with _ | c <;> rcases ht : p.tag_items with _ | ⟨t, ts⟩ <;>
    simp [to_dict, List.lookup, published, hc, ht]

/-- Claim C4: deleting a `Category` or `Tag` that some post still references
is refused and leaves the whole store unchanged (the row and all its
references survive); deleting an existing unreferenced row succeeds,
removes exactly that row and touches nothing else. -/
theorem c4_delete_guard (st : TaxState) (cid tid : Nat) :
    ((st.categories.any fun c => c.id == cid) = true → categoryInUse st cid = true →
      adminDeleteCategory st cid = (st, .refused)) ∧
    ((st.categories.any fun c => c.id == cid) = true → categoryInUse st cid = false →
      (adminDeleteCategory st cid).2 = .deleted ∧
      (adminDeleteCategory st cid).1.posts = st.posts ∧
      (adminDeleteCategory st cid).1.tags = st.tags ∧
      (∀ c ∈ st.categories, c.id ≠ cid → c ∈ (adminDeleteCategory st cid).1.categories) ∧
      (∀ c ∈ (adminDeleteCategory st cid).1.categories, c.id ≠ cid)) ∧
    ((st.tags.any fun t => t.id == tid) = true → tagInUse st tid = true →
      adminDeleteTag st tid = (st, .refused)) ∧
    ((st.tags.any fun t => t.id == tid) = true → tagInUse st tid = false →
      (adminDeleteTag st tid).2 = .deleted ∧
      (adminDeleteTag st tid).1.posts = st.posts ∧
      (adminDeleteTag st tid).1.categories = st.categories ∧
      (∀ t ∈ st.tags, t.id ≠ tid → t ∈ (adminDeleteTag st tid).1.tags) ∧
      (∀ t ∈ (adminDeleteTag st tid).1.tags, t.id ≠ tid)) := by
  refine ⟨?_, ?_, ?_, ?_⟩
  · intro hany huse
    rw [List.any_eq_true] at hany
    obtain ⟨c0, hc0⟩ := Option.isSome_iff_exists.mp (List.find?_isSome.mpr hany)
    simp [adminDeleteCategory, hc0, huse]
  · intro hany huse
    rw [List.any_eq_true] at hany
    obtain ⟨c0, hc0⟩ := Option.isSome_iff_exists.mp (List.find?_isSome.mpr hany)
    refine ⟨by simp [adminDeleteCategory, hc0, huse], by simp [adminDeleteCategory, hc0, huse],
      by simp [adminDeleteCategory, hc0, huse], ?_, ?_⟩
    · intro c hcmem hcne
      simp [adminDeleteCategory, hc0, huse, List.mem_filter]
      exact ⟨hcmem, hcne⟩
    · intro c hcmem
      simp [adminDeleteCategory, hc0, huse, List.mem_filter] at hcmem
      exact hcmem.2
  · intro hany huse
    rw [List.any_eq_true] at hany
    obtain ⟨t0, ht0⟩ := Option.isSome_iff_exists.mp (List.find?_isSome.mpr hany)
    simp [adminDeleteTag, ht0, huse]
  · intro hany huse
    rw [List.any_eq_true] at hany
    obtain ⟨t0, ht0⟩ := Option.isSome_iff_exists.mp (List.find?_isSome.mpr hany)
    refine ⟨by simp [adminDeleteTag, ht0, huse], by simp [adminDeleteTag, ht0, huse],
      by simp [adminDeleteTag, ht0, huse], ?_, ?_⟩
    · intro t htmem htne
      simp [adminDeleteTag, ht0, huse, List.mem_filter]
      exact ⟨htmem, htne⟩
    · intro t htmem
      simp [adminDeleteTag, ht0, huse, List.mem_filter] at htmem
      exact htmem.2

/-- Witness for C4: in the sample state, category 10 is referenced and its
deletion is refused with the state unchanged; tag 21 is unreferenced and its
deletion succeeds. -/
theorem c4_witness :
    adminDeleteCategory sampleTaxState 10 = (sampleTaxState, .refused) ∧
    (adminDeleteTag sampleTaxState 21).2 = .deleted := by
  have h := c4_delete_guard sampleTaxState 10 21
  exact ⟨h.1 (by decide) (by decide), (h.2.2.2 (by decide) (by decide)).1⟩

/-! ## Supporting lemmas: tag attachment -/

theorem attachTags_fold_names (store : List TagRow) :
    ∀ (names : List String) (acc : List TagRow × List TagRow × Nat),
      ((names.foldl (attachTagsStep store) acc).1).map (·.name) =
        acc.1.map (·.name) ++ names := by
  intro names
  induction names with
  | nil =>
    intro acc
    simp
  | cons name rest ih =>
    intro acc
    rw [List.foldl_cons, ih]
    unfold attachTagsStep
    cases hfind : store.find? (fun t => t.name == name) with
    | none => simp
    | some t =>
      have hbeq := List.find?_some hfind
      have hname : t.name = name := eq_of_beq hbeq
      simp [hname]

theorem attachTags_store_extends (store : List TagRow) :
    ∀ (names : List String) (acc : List TagRow × List TagRow × Nat) (x : TagRow),
      x ∈ acc.2.1 → x ∈ (names.foldl (attachTagsStep store) acc).2.1 := by
  intro names
  induction names with
  | nil =>
    intro acc x h
    simpa using h
  | cons name rest ih =>
    intro acc x h
    rw [List.foldl_cons]
    refine ih _ x ?_
    unfold attachTagsStep
    cases hfind : store.find? (fun t => t.name == name) with
    | none =>
      simp
      exact Or.inl h
    | some t => exact h

theorem attachTags_items_in_store (store : List TagRow) :
    ∀ (names : List String) (acc : List TagRow × List TagRow × Nat),
      (∀ x ∈ store, x ∈ acc.2.1) → (∀ x ∈ acc.1, x ∈ acc.2.1) →
      ∀ x ∈ (names.foldl (attachTagsStep store) acc).1,
        x ∈ (names.foldl (attachTagsStep store) acc).2.1 := by
  intro names
  induction names with
  | nil =>
    intro acc _ hitems x hx
    exact hitems x hx
  | cons name rest ih =>
    intro acc hstore hitems x
    rw [List.foldl_cons]
    refine ih _ ?_ ?_ x
    · intro y hy
      cases hfind : store.find? (fun t => t.name == name) with
      | none =>
        simp only [attachTagsStep, hfind]
        exact List.mem_append.mpr (Or.inl (hstore y hy))
      | some t =>
        simp only [attachTagsStep, hfind]
        exact hstore y hy
    · intro y hy
      cases hfind : store.find? (fun t => t.name == name) with
      | none =>
        simp only [attachTagsStep, hfind] at hy ⊢
        rcases List.mem_append.mp hy with h1 | h1
        · exact List.mem_append.mpr (Or.inl (hitems y h1))
        · exact List.mem_append.mpr (Or.inr h1)
      | some t =>
        simp only [attachTagsStep, hfind] at hy ⊢
        rcases List.mem_append.mp hy with h1 | h1
        · exact hitems y h1
        · rw [List.mem_singleton] at h1
          subst h1
          exact hstore y (List.mem_of_find?_eq_some hfind)

/-- Claim C5: attaching tags from a comma-separated string fully replaces
the post's tag set: whatever tags were attached before, the resulting
`tag_items` carry exactly the split-and-trimmed non-empty names of the
input (in order), every previous store row survives, and every attached tag
row exists in the resulting store (reused when its name was present,
freshly created otherwise). -/
theorem c5_attach_tags_replace (prevItems store : List TagRow) (nextId : Nat)
    (s : String) :
    (adminEditPostTags prevItems store nextId s).1.map (·.name) = parseTagNames s ∧
    adminEditPostTags prevItems store nextId s = adminEditPostTags [] store nextId s ∧
    (∀ x ∈ store, x ∈ (adminEditPostTags prevItems store nextId s).2.1) ∧
    (∀ x ∈ (adminEditPostTags prevItems store nextId s).1,
      x ∈ (adminEditPostTags prevItems store nextId s).2.1) := by
  refine ⟨?_, rfl, ?_, ?_⟩
  · unfold adminEditPostTags
    rw [attachTags_fold_names]
    simp
  · intro x hx
    exact attachTags_store_extends store _ _ x hx
  · exact attachTags_items_in_store store _ _ (fun x hx => hx) (fun x hx => by simp at hx)

/-- Witness for C5: attaching "python, flask" against a store that already
holds a `flask` tag yields tag items named exactly `python` and `flask`. -/
theorem c5_witness :
    (adminEditPostTags [⟨5, "old", none⟩] [⟨1, "flask", none⟩] 100 "python, flask").1.map
      (·.name) = ["python", "flask"] := by
  have h := c5_attach_tags_replace [⟨5, "old", none⟩] [⟨1, "flask", none⟩] 100 "python, flask"
  exact h.1.trans (by decide)
